import Mathlib

/-
Formal model of `softlearning/policies/gaussian_policy.py`.

The file shallowly embeds the squashed-Gaussian policy over the reals:
tensors become lists of reals (a batch is a list of rows), the TensorFlow
Probability bijectors become an inductive `Bijector` type with `forward`,
`inverse` and forward-log-det-Jacobian operations, and the dense Keras
layers become explicit weight-matrix/bias computations.  Floating-point
special values (NaN, plus or minus infinity) produced by inverting the
tanh squash outside its range are modelled by `Option`: `none` stands for
a non-finite result.
-/

noncomputable section

namespace GaussianPolicyModel

open Real

/-- `tf.nn.softplus`: softplus x = log (1 + exp x). -/
def softplus (x : ℝ) : ℝ := Real.log (1 + Real.exp x)

/-- Scalar forward log-det-Jacobian of `SquashBijector`, exactly as coded:
`2.0 * (tf.log(2.0) - x - tf.nn.softplus(-2.0 * x))`. -/
def squashFLDJ (x : ℝ) : ℝ := 2 * (Real.log 2 - x - softplus (-2 * x))

/-- `tf.atanh`, the scalar inverse used by the Tanh/Squash bijector:
atanh y = (1/2) * log ((1 + y) / (1 - y)). -/
def atanh (y : ℝ) : ℝ := Real.log ((1 + y) / (1 - y)) / 2

open Classical in
/-- The scalar squash inversion with its domain made explicit: outside the
open interval (-1, 1) the floating-point `atanh` returns NaN or an infinity,
modelled here by `none`. -/
def atanhChecked (y : ℝ) : Option ℝ :=
  if -1 < y ∧ y < 1 then some (atanh y) else none

/-- Apply a fallible scalar map to every element; any failure (a NaN or an
infinity in the tensor) poisons the whole result. -/
def mapOption (f : ℝ → Option ℝ) : List ℝ → Option (List ℝ)
  | [] => some []
  | a :: l => (f a).bind fun b => (mapOption f l).map fun bs => b :: bs

/-- `SCALE_DIAG_MIN_MAX = (-20, 2)` from the source. -/
def SCALE_DIAG_MIN_MAX : ℝ × ℝ := (-20, 2)

/-- `tf.clip_by_value(t, lo, hi) = min(max(t, lo), hi)` elementwise. -/
def clipByValue (lo hi x : ℝ) : ℝ := min (max x lo) hi

/-- The bijectors the policy builds: `tfp.bijectors.Affine` with a shift and
a diagonal scale, the `SquashBijector` (a Tanh bijector with the stable
Jacobian), `tfp.bijectors.Identity`, and `tfp.bijectors.Chain` of two
bijectors (`comp outer inner` is `Chain((outer, inner))`). -/
inductive Bijector where
  | affine (shift scaleDiag : List ℝ)
  | squash
  | identity
  | comp (outer inner : Bijector)

/-- Forward application.  Affine: `shift + scale_diag * x` elementwise;
squash: elementwise tanh; Chain applies the inner (last-listed) bijector
first, matching `tfp.bijectors.Chain` forward order. -/
def Bijector.forward : Bijector → List ℝ → List ℝ
  | .affine sh sc, x => List.zipWith (fun s v => s + v) sh (List.zipWith (fun a b => a * b) sc x)
  | .squash, x => x.map Real.tanh
  | .identity, x => x
  | .comp o i, x => o.forward (i.forward x)

/-- Inverse application.  Affine: `(y - shift) / scale_diag`; squash:
elementwise checked atanh, failing (NaN/Inf) outside (-1, 1); Chain inverts
the outer bijector first. -/
def Bijector.inverse : Bijector → List ℝ → Option (List ℝ)
  | .affine sh sc, y =>
      some (List.zipWith (fun d s => d / s) (List.zipWith (fun a b => a - b) y sh) sc)
  | .squash, y => mapOption atanhChecked y
  | .identity, y => some y
  | .comp o i, y => (o.inverse y).bind i.inverse

/-- Forward log-det-Jacobian over the event dimensions.  Affine contributes
the sum of log scales, squash the sum of the stable per-coordinate terms,
Chain accumulates along the forward path. -/
def Bijector.fldj : Bijector → List ℝ → ℝ
  | .affine _ sc, _ => (sc.map Real.log).sum
  | .squash, x => (x.map squashFLDJ).sum
  | .identity, _ => 0
  | .comp o i, x => i.fldj x + o.fldj (i.forward x)

/-- Log-density of the standard `MultivariateNormalDiag(zeros(A), ones(A))`
base distribution at a point. -/
def mvnDiagStdLogProb (A : ℕ) (x : List ℝ) : ℝ :=
  -(x.map (fun v => v ^ 2)).sum / 2 - (A : ℝ) / 2 * Real.log (2 * Real.pi)

/-- `TransformedDistribution(base, bijector).log_prob(y)`: the base
log-density at the inverse image of `y`, corrected by the accumulated
log-det-Jacobian (change of variables); non-finite when inversion fails. -/
def transformedLogProb (A : ℕ) (b : Bijector) (y : List ℝ) : Option ℝ :=
  (b.inverse y).map (fun x => mvnDiagStdLogProb A x - b.fldj x)

/-! ### The conditioner network (Keras dense stack) -/

/-- The default hidden activation `relu`. -/
def relu (x : ℝ) : ℝ := max x 0

/-- Dot product of a weight row with the input features. -/
def dot (w x : List ℝ) : ℝ := (List.zipWith (fun a b => a * b) w x).sum

/-- One `tf.keras.layers.Dense` layer: each output unit is
`act (w . x + b)` for its weight row `w` and bias `b`. -/
def denseLayer (W : List (List ℝ)) (b : List ℝ) (act : ℝ → ℝ) (x : List ℝ) : List ℝ :=
  (W.zip b).map (fun wb => act (dot wb.1 x + wb.2))

/-- Weights of the policy network: the hidden dense stack (weight matrix and
bias per layer) and the final linear layer producing `2 * A` outputs. -/
structure PolicyNet where
  hiddenLayers : List (List (List ℝ) × List ℝ)
  outputW : List (List ℝ)
  outputB : List ℝ

/-- One row of conditioning data (one tensor slice per conditioning source)
is concatenated along the feature axis and pushed through the hidden stack
(activation `act`) and the final linear layer. -/
def conditionerOut (act : ℝ → ℝ) (net : PolicyNet) (condInputs : List (List ℝ)) : List ℝ :=
  denseLayer net.outputW net.outputB (fun v => v)
    (net.hiddenLayers.foldl (fun h l => denseLayer l.1 l.2 act h) condInputs.flatten)

/-- `tf.split(out, 2, axis=-1)` into `(shift, log_scale_diag)` followed by
`tf.clip_by_value(log_scale_diag, *SCALE_DIAG_MIN_MAX)`: the first `A`
outputs are the shift, the remaining outputs are the raw log scale, clipped
elementwise to `[-20, 2]` before any use. -/
def shiftAndLogScale (act : ℝ → ℝ) (net : PolicyNet) (A : ℕ)
    (condInputs : List (List ℝ)) : List ℝ × List ℝ :=
  ((conditionerOut act net condInputs).take A,
    ((conditionerOut act net condInputs).drop A).map
      (clipByValue SCALE_DIAG_MIN_MAX.1 SCALE_DIAG_MIN_MAX.2))

/-! ### Sampling path and scoring path -/

/-- `raw_actions_fn`: the Affine bijector with `scale_diag = exp(log_scale_diag)`
applied forward to the latent sample. -/
def raw_actions_fn (shift logScaleDiag latents : List ℝ) : List ℝ :=
  (Bijector.affine shift (logScaleDiag.map Real.exp)).forward latents

/-- The squash bijector selected at construction: `SquashBijector()` when
`squash` is true, `tfp.bijectors.Identity()` otherwise. -/
def squash_bijector (squash : Bool) : Bijector :=
  if squash then Bijector.squash else Bijector.identity

/-- One batch row of the `actions_model`: conditioner, then affine forward on
the latent, then the squash (or identity) forward. -/
def actionsRow (act : ℝ → ℝ) (net : PolicyNet) (A : ℕ) (squash : Bool)
    (cond : List (List ℝ)) (latent : List ℝ) : List ℝ :=
  (squash_bijector squash).forward
    (raw_actions_fn (shiftAndLogScale act net A cond).1 (shiftAndLogScale act net A cond).2
      latent)

/-- The bijector chain built by `log_pis_fn`:
`tfp.bijectors.Chain((squash_bijector, Affine(shift, exp(log_scale_diag))))`. -/
def policyChain (act : ℝ → ℝ) (net : PolicyNet) (A : ℕ) (squash : Bool)
    (cond : List (List ℝ)) : Bijector :=
  Bijector.comp (squash_bijector squash)
    (Bijector.affine (shiftAndLogScale act net A cond).1
      ((shiftAndLogScale act net A cond).2.map Real.exp))

/-- `log_pis_fn` for one batch row: the log-probability of `action` under the
base distribution pushed through `Chain((squash_bijector, Affine(shift,
exp(log_scale_diag))))`, with the conditioner re-run on the same inputs. -/
def log_pis_fn (act : ℝ → ℝ) (net : PolicyNet) (A : ℕ) (squash : Bool)
    (cond : List (List ℝ)) (action : List ℝ) : Option ℝ :=
  transformedLogProb A (policyChain act net A squash cond) action

/-- `actions_model` on a batch: one standard-normal latent row per
conditioning row, transformed rowwise. -/
def actions_model (act : ℝ → ℝ) (net : PolicyNet) (A : ℕ) (squash : Bool)
    (conds : List (List (List ℝ))) (latents : List (List ℝ)) : List (List ℝ) :=
  List.zipWith (actionsRow act net A squash) conds latents

/-- `log_pis_model` on a batch: the `[:, None]` in the source turns the
batch vector of log-probabilities into a `(batch, 1)` column, modelled by
wrapping each scalar in a singleton row. -/
def log_pis_model (act : ℝ → ℝ) (net : PolicyNet) (A : ℕ) (squash : Bool)
    (conds : List (List (List ℝ))) (acts : List (List ℝ)) : List (List (Option ℝ)) :=
  List.zipWith (fun c a => [log_pis_fn act net A squash c a]) conds acts

/-! ### The policy object and its public operations -/

/-- The constructed `GaussianPolicy`: the stored configuration
(`self._squash`, `self._regularization_coeff`, the activation) and the
network weights created at construction.  The latent draw is passed
explicitly to the sampling operations: it stands for the output of the
seeded base-distribution sampler. -/
structure GaussianPolicy where
  squash : Bool
  regularization_coeff : ℝ
  activation : ℝ → ℝ
  net : PolicyNet
  A : ℕ

/-- `GaussianPolicy.actions`: run the actions model. -/
def GaussianPolicy.actions (p : GaussianPolicy) (conds : List (List (List ℝ)))
    (latents : List (List ℝ)) : List (List ℝ) :=
  actions_model p.activation p.net p.A p.squash conds latents

/-- `GaussianPolicy.log_pis`: run the log-pis model. -/
def GaussianPolicy.log_pis (p : GaussianPolicy) (conds : List (List (List ℝ)))
    (acts : List (List ℝ)) : List (List (Option ℝ)) :=
  log_pis_model p.activation p.net p.A p.squash conds acts

/-- `actions_np` runs the same model through `predict`; the computation is
identical. -/
def GaussianPolicy.actions_np (p : GaussianPolicy) (conds : List (List (List ℝ)))
    (latents : List (List ℝ)) : List (List ℝ) :=
  p.actions conds latents

/-- `log_pis_np` runs the same model through `predict`; the computation is
identical. -/
def GaussianPolicy.log_pis_np (p : GaussianPolicy) (conds : List (List (List ℝ)))
    (acts : List (List ℝ)) : List (List (Option ℝ)) :=
  p.log_pis conds acts

/-- `trainable_variables`: every weight matrix and bias of the conditioner
network (the only learnable tensors). -/
def GaussianPolicy.trainable_variables (p : GaussianPolicy) :
    List (List (List ℝ) × List ℝ) :=
  p.net.hiddenLayers ++ [(p.net.outputW, p.net.outputB)]

/-- `get_diagnostics` returns an empty ordered mapping. -/
def GaussianPolicy.get_diagnostics (p : GaussianPolicy) (iteration : ℕ)
    (batch : List (List ℝ)) : List (String × ℝ) :=
  []

/-- `reset` is a no-op. -/
def GaussianPolicy.reset (p : GaussianPolicy) : Unit := ()

/-- A concrete one-dimensional network used to instantiate theorems: no
hidden layer, final layer of 2 units over one input feature, all weights
and biases zero. -/
def witnessNet : PolicyNet := ⟨[], [[0], [0]], [0, 0]⟩

/-- A concrete network whose shift bias is 5, used to exhibit unsquashed
actions outside the interval (-1, 1). -/
def unboundedNet : PolicyNet := ⟨[], [[0], [0]], [5, 0]⟩

/-! ### Scalar analysis facts about the squash bijector -/

theorem tanh_mem_Ioo (x : ℝ) : -1 < Real.tanh x ∧ Real.tanh x < 1 := by
  have hc : (0 : ℝ) < Real.cosh x := Real.cosh_pos x
  rw [Real.tanh_eq_sinh_div_cosh]
  constructor
  · rw [lt_div_iff₀ hc]
    have h := Real.exp_pos x
    rw [← Real.cosh_add_sinh x] at h
    linarith
  · rw [div_lt_one hc]
    have h := Real.exp_pos (-x)
    rw [← Real.cosh_sub_sinh x] at h
    linarith

theorem atanh_tanh (x : ℝ) : atanh (Real.tanh x) = x := by
  have hc : (0 : ℝ) < Real.cosh x := Real.cosh_pos x
  have hratio : (1 + Real.tanh x) / (1 - Real.tanh x) = Real.exp (2 * x) := by
    rw [Real.tanh_eq_sinh_div_cosh]
    have hsub : (0 : ℝ) < Real.cosh x - Real.sinh x := by
      rw [Real.cosh_sub_sinh]; exact Real.exp_pos _
    have h1 : 1 + Real.sinh x / Real.cosh x = (Real.cosh x + Real.sinh x) / Real.cosh x := by
      field_simp
    have h2 : 1 - Real.sinh x / Real.cosh x = (Real.cosh x - Real.sinh x) / Real.cosh x := by
      field_simp
    have h3 : (Real.cosh x + Real.sinh x) / Real.cosh x / ((Real.cosh x - Real.sinh x) / Real.cosh x)
        = (Real.cosh x + Real.sinh x) / (Real.cosh x - Real.sinh x) := by
      field_simp
    have h4 : (Real.cosh x + Real.sinh x) / (Real.cosh x - Real.sinh x) = Real.exp (2 * x) := by
      rw [Real.cosh_add_sinh, Real.cosh_sub_sinh, ← Real.exp_sub]
      congr 1
      ring
    rw [h1, h2, h3, h4]
  rw [atanh, hratio, Real.log_exp]
  ring

theorem squashFLDJ_eq (x : ℝ) : squashFLDJ x = Real.log (1 - Real.tanh x ^ 2) := by
  have hc : (0 : ℝ) < Real.cosh x := Real.cosh_pos x
  have h1 : 1 - Real.tanh x ^ 2 = (Real.cosh x ^ 2)⁻¹ := by
    rw [Real.tanh_eq_sinh_div_cosh, div_pow]
    have h := Real.cosh_sq_sub_sinh_sq x
    field_simp
  have hcosh : Real.cosh x = Real.exp x * (1 + Real.exp (-2 * x)) / 2 := by
    rw [Real.cosh_eq]
    have h : Real.exp x * Real.exp (-2 * x) = Real.exp (-x) := by
      rw [← Real.exp_add]; ring_nf
    nlinarith [h]
  have hpos : (0 : ℝ) < 1 + Real.exp (-2 * x) := by positivity
  have hlogcosh : Real.log (Real.cosh x) =
      x + Real.log (1 + Real.exp (-2 * x)) - Real.log 2 := by
    rw [hcosh, Real.log_div (by positivity) (by norm_num),
      Real.log_mul (Real.exp_ne_zero x) (ne_of_gt hpos), Real.log_exp]
  rw [h1, Real.log_inv, Real.log_pow, squashFLDJ, softplus, hlogcosh]
  push_cast
  ring

/-- C2: the squash bijector computes its forward log-det-Jacobian with the
stable formula `2 * (log 2 - x - softplus (-2 x))`; this expression equals
`log (1 - tanh x ^ 2)` at every real `x`, and at `x = 50` it is a finite
negative number of large magnitude (between -100 and -90), not a NaN or
a negative infinity. -/
theorem squash_fldj_stable_and_exact :
    (∀ x : ℝ, squashFLDJ x = 2 * (Real.log 2 - x - softplus (-2 * x))) ∧
    (∀ x : ℝ, squashFLDJ x = Real.log (1 - Real.tanh x ^ 2)) ∧
    (-100 < squashFLDJ 50 ∧ squashFLDJ 50 < -90) := by
  have hval : squashFLDJ 50 = 2 * (Real.log 2 - 50 - softplus (-100)) := by
    rw [squashFLDJ]
    norm_num
  refine ⟨fun x => rfl, squashFLDJ_eq, ?_, ?_⟩
  · have hlog2 : (0.6931471803 : ℝ) < Real.log 2 := Real.log_two_gt_d9
    have hsp : softplus (-100) ≤ Real.exp (-100) := by
      rw [softplus]
      have hlog := Real.log_le_sub_one_of_pos
        (show (0 : ℝ) < 1 + Real.exp (-100) by positivity)
      linarith
    have h101 : (101 : ℝ) ≤ Real.exp 100 := by
      have h := Real.add_one_le_exp (100 : ℝ)
      linarith
    have hexp : Real.exp (-100 : ℝ) ≤ 1 / 101 := by
      rw [Real.exp_neg]
      rw [inv_le_comm₀ (by positivity) (by norm_num)]
      linarith
    rw [hval]
    linarith
  · have hlog2 : Real.log 2 < (0.6931471808 : ℝ) := Real.log_two_lt_d9
    have hsp : 0 < softplus (-100 : ℝ) := by
      rw [softplus]
      apply Real.log_pos
      have := Real.exp_pos (-100 : ℝ)
      linarith
    rw [hval]
    linarith

/-! ### Structural reduction lemmas for the bijector operations -/

@[simp] theorem forward_affine (sh sc x : List ℝ) :
    (Bijector.affine sh sc).forward x =
      List.zipWith (fun s v => s + v) sh (List.zipWith (fun a b => a * b) sc x) := rfl

@[simp] theorem forward_squash (x : List ℝ) :
    Bijector.squash.forward x = x.map Real.tanh := rfl

@[simp] theorem forward_identity (x : List ℝ) : Bijector.identity.forward x = x := rfl

@[simp] theorem forward_comp (o i : Bijector) (x : List ℝ) :
    (Bijector.comp o i).forward x = o.forward (i.forward x) := rfl

@[simp] theorem inverse_affine (sh sc y : List ℝ) :
    (Bijector.affine sh sc).inverse y =
      some (List.zipWith (fun d s => d / s) (List.zipWith (fun a b => a - b) y sh) sc) := rfl

@[simp] theorem inverse_squash (y : List ℝ) :
    Bijector.squash.inverse y = mapOption atanhChecked y := rfl

@[simp] theorem mapOption_nil (f : ℝ → Option ℝ) : mapOption f [] = some [] := rfl

@[simp] theorem mapOption_cons (f : ℝ → Option ℝ) (a : ℝ) (l : List ℝ) :
    mapOption f (a :: l) = (f a).bind fun b => (mapOption f l).map fun bs => b :: bs := rfl

@[simp] theorem inverse_identity (y : List ℝ) : Bijector.identity.inverse y = some y := rfl

@[simp] theorem inverse_comp (o i : Bijector) (y : List ℝ) :
    (Bijector.comp o i).inverse y = (o.inverse y).bind i.inverse := rfl

@[simp] theorem fldj_affine (sh sc x : List ℝ) :
    (Bijector.affine sh sc).fldj x = (sc.map Real.log).sum := rfl

@[simp] theorem fldj_squash (x : List ℝ) :
    Bijector.squash.fldj x = (x.map squashFLDJ).sum := rfl

@[simp] theorem fldj_identity (x : List ℝ) : Bijector.identity.fldj x = 0 := rfl

@[simp] theorem fldj_comp (o i : Bijector) (x : List ℝ) :
    (Bijector.comp o i).fldj x = i.fldj x + o.fldj (i.forward x) := rfl

@[simp] theorem squash_bijector_true : squash_bijector true = Bijector.squash := rfl

@[simp] theorem squash_bijector_false : squash_bijector false = Bijector.identity := rfl

/-! ### List-level helper lemmas -/

theorem clipByValue_bounds (lo hi x : ℝ) (h : lo ≤ hi) :
    lo ≤ clipByValue lo hi x ∧ clipByValue lo hi x ≤ hi :=
  ⟨le_min (le_max_right x lo) h, min_le_right _ _⟩

/-- Every element of the clipped log-scale half lies in [-20, 2]. -/
theorem shiftAndLogScale_snd_bounds (act : ℝ → ℝ) (net : PolicyNet) (A : ℕ)
    (c : List (List ℝ)) (v : ℝ) (hv : v ∈ (shiftAndLogScale act net A c).2) :
    -20 ≤ v ∧ v ≤ 2 := by
  simp only [shiftAndLogScale, List.mem_map] at hv
  obtain ⟨u, hu, rfl⟩ := hv
  have h := clipByValue_bounds (SCALE_DIAG_MIN_MAX.1) (SCALE_DIAG_MIN_MAX.2) u
    (by norm_num [SCALE_DIAG_MIN_MAX])
  simpa [SCALE_DIAG_MIN_MAX] using h

/-- Inverting the elementwise squash at squashed points always succeeds and
recovers the raw input. -/
theorem squash_inverse_forward (r : List ℝ) :
    Bijector.squash.inverse (Bijector.squash.forward r) = some r := by
  induction r with
  | nil => rfl
  | cons a l ih =>
    have hb := tanh_mem_Ioo a
    simp only [forward_squash, inverse_squash, List.map_cons, mapOption_cons] at ih ⊢
    rw [show atanhChecked (Real.tanh a) = some a by
      simp [atanhChecked, hb.1, hb.2, atanh_tanh], ih]
    rfl

/-- Inverting the elementwise squash succeeds at any point strictly inside
(-1, 1) in every coordinate, producing the elementwise atanh. -/
theorem mapOption_atanhChecked_of_range (a : List ℝ) (h : ∀ y ∈ a, -1 < y ∧ y < 1) :
    mapOption atanhChecked a = some (a.map atanh) := by
  induction a with
  | nil => rfl
  | cons y l ih =>
    have hy := h y (by simp)
    rw [List.map_cons, mapOption_cons,
      show atanhChecked y = some (atanh y) by simp [atanhChecked, hy.1, hy.2],
      ih (fun w hw => h w (by simp [hw]))]
    rfl

/-- Affine round trip, list form: applying the affine forward map and then
its inverse recovers the input when the shapes agree and no scale is 0. -/
theorem affine_roundtrip (sh sc z : List ℝ) (h1 : sh.length = sc.length)
    (h2 : sc.length = z.length) (h0 : ∀ s ∈ sc, s ≠ 0) :
    List.zipWith (fun d s => d / s)
      (List.zipWith (fun a b => a - b)
        (List.zipWith (fun s v => s + v) sh (List.zipWith (fun a b => a * b) sc z)) sh) sc
      = z := by
  induction sh generalizing sc z with
  | nil =>
    have hsc : sc = [] := List.length_eq_zero.1 h1.symm
    subst hsc
    have hz : z = [] := List.length_eq_zero.1 h2.symm
    subst hz
    simp
  | cons s sh ih =>
    cases sc with
    | nil => simp at h1
    | cons σ sc =>
      cases z with
      | nil => simp at h2
      | cons v z =>
        have hσ : σ ≠ 0 := h0 σ (by simp)
        have hhead : (s + σ * v - s) / σ = v := by field_simp
        simp only [List.zipWith_cons_cons, hhead]
        rw [ih sc z (by simpa using h1) (by simpa using h2)
          (fun w hw => h0 w (by simp [hw]))]

/-- The affine bijector of the policy inverts its own forward map. -/
theorem affine_inverse_forward (sh sc z : List ℝ) (h1 : sh.length = sc.length)
    (h2 : sc.length = z.length) (h0 : ∀ s ∈ sc, s ≠ 0) :
    (Bijector.affine sh sc).inverse ((Bijector.affine sh sc).forward z) = some z := by
  rw [forward_affine, inverse_affine, affine_roundtrip sh sc z h1 h2 h0]

/-- Affine forward applied to the affine inverse image recovers the point
when the shapes agree and no scale is 0. -/
theorem affine_forward_inverse (sh sc w : List ℝ) (h1 : sh.length = sc.length)
    (h2 : sc.length = w.length) (h0 : ∀ s ∈ sc, s ≠ 0) :
    (Bijector.affine sh sc).forward
      (List.zipWith (fun d s => d / s) (List.zipWith (fun a b => a - b) w sh) sc) = w := by
  rw [forward_affine]
  induction sh generalizing sc w with
  | nil =>
    have hsc : sc = [] := List.length_eq_zero.1 h1.symm
    subst hsc
    have hw : w = [] := List.length_eq_zero.1 h2.symm
    subst hw
    simp
  | cons s sh ih =>
    cases sc with
    | nil => simp at h1
    | cons σ sc =>
      cases w with
      | nil => simp at h2
      | cons v w =>
        have hσ : σ ≠ 0 := h0 σ (by simp)
        have hhead : s + σ * ((v - s) / σ) = v := by field_simp
        simp only [List.zipWith_cons_cons, hhead]
        rw [ih sc w (by simpa using h1) (by simpa using h2)
          (fun u hu => h0 u (by simp [hu]))]

/-- The log-det-Jacobian of the affine bijector with exponentiated scales
is the sum of the log scales. -/
theorem affine_exp_fldj (sh lsd x : List ℝ) :
    (Bijector.affine sh (lsd.map Real.exp)).fldj x = lsd.sum := by
  simp [List.map_map, Function.comp_def, Real.log_exp]

theorem map_tanh_affine (sh lsd z : List ℝ) :
    ((Bijector.affine sh (lsd.map Real.exp)).forward z).map Real.tanh =
      List.zipWith (fun p v => Real.tanh (p.1 + Real.exp p.2 * v)) (sh.zip lsd) z := by
  induction sh generalizing lsd z with
  | nil => simp [Bijector.forward]
  | cons s sh ih =>
    cases lsd with
    | nil => simp [Bijector.forward]
    | cons l lsd =>
      cases z with
      | nil => simp [Bijector.forward]
      | cons v z =>
        simpa [Bijector.forward] using ih lsd z

/-! ### C4: the clipping invariant -/

/-- C4: every log-scale value produced by the conditioner half-split is
clipped elementwise into `[-20, 2]` before any downstream use, whatever the
conditioner outputs. -/
theorem log_scale_clipped_range (act : ℝ → ℝ) (net : PolicyNet) (A : ℕ)
    (c : List (List ℝ)) (v : ℝ) (hv : v ∈ (shiftAndLogScale act net A c).2) :
    -20 ≤ v ∧ v ≤ 2 :=
  shiftAndLogScale_snd_bounds act net A c v hv

/-- Witness for C4 at the concrete zero network. -/
theorem log_scale_clipped_range_witness :
    (0 : ℝ) ∈ (shiftAndLogScale relu witnessNet 1 [[0]]).2 ∧ (-20 ≤ (0 : ℝ) ∧ (0 : ℝ) ≤ 2) := by
  have hmem : (0 : ℝ) ∈ (shiftAndLogScale relu witnessNet 1 [[0]]).2 := by
    simp [shiftAndLogScale, conditionerOut, denseLayer, dot, witnessNet, clipByValue,
      SCALE_DIAG_MIN_MAX]
  exact ⟨hmem, log_scale_clipped_range relu witnessNet 1 [[0]] 0 hmem⟩

/-! ### C7: identity bijector when squashing is disabled -/

/-- C7: with `squash = false` the Identity bijector (forward is the
identity map, zero log-det-Jacobian) is substituted, and the sampled
actions equal the raw affine-transformed latents exactly, rowwise and on
the whole batch. -/
theorem squash_false_identity_equiv :
    (∀ y : List ℝ, Bijector.identity.forward y = y) ∧
    (∀ y : List ℝ, Bijector.identity.fldj y = 0) ∧
    (∀ (act : ℝ → ℝ) (net : PolicyNet) (A : ℕ) (c : List (List ℝ)) (z : List ℝ),
      actionsRow act net A false c z =
        raw_actions_fn (shiftAndLogScale act net A c).1 (shiftAndLogScale act net A c).2 z) ∧
    (∀ (act : ℝ → ℝ) (net : PolicyNet) (A : ℕ) (conds : List (List (List ℝ)))
      (latents : List (List ℝ)),
      actions_model act net A false conds latents =
        List.zipWith (fun c z => raw_actions_fn (shiftAndLogScale act net A c).1
          (shiftAndLogScale act net A c).2 z) conds latents) :=
  ⟨fun _ => rfl, fun _ => rfl, fun _ _ _ _ _ => rfl, fun _ _ _ _ _ => rfl⟩

/-! ### C3: the sampling path -/

/-- C3: the sampling path applies the affine bijector first and the squash
second: each action coordinate is `tanh (shift + exp log_scale_diag * latent)`
with the parameters taken from the conditioner network, and the batch model
draws one latent row per conditioning row. -/
theorem sampling_path_composition :
    (∀ (act : ℝ → ℝ) (net : PolicyNet) (A : ℕ) (c : List (List ℝ)) (z : List ℝ),
      actionsRow act net A true c z =
        List.zipWith (fun p v => Real.tanh (p.1 + Real.exp p.2 * v))
          ((shiftAndLogScale act net A c).1.zip (shiftAndLogScale act net A c).2) z) ∧
    (∀ (act : ℝ → ℝ) (net : PolicyNet) (A : ℕ) (conds : List (List (List ℝ)))
      (latents : List (List ℝ)),
      actions_model act net A true conds latents =
        List.zipWith (actionsRow act net A true) conds latents) := by
  refine ⟨fun act net A c z => ?_, fun act net A conds latents => rfl⟩
  exact map_tanh_affine _ _ z

/-! ### C8: the regularization coefficient is inert -/

/-- C8: two policies built with different `regularization_coeff` but
otherwise identical construction arguments, weights and latent randomness
agree on every public operation. -/
theorem regularization_coeff_inert (sq : Bool) (r₁ r₂ : ℝ) (act : ℝ → ℝ)
    (net : PolicyNet) (A : ℕ) (conds : List (List (List ℝ)))
    (latents acts : List (List ℝ)) (iteration : ℕ) (batch : List (List ℝ)) :
    (GaussianPolicy.mk sq r₁ act net A).actions conds latents =
      (GaussianPolicy.mk sq r₂ act net A).actions conds latents ∧
    (GaussianPolicy.mk sq r₁ act net A).log_pis conds acts =
      (GaussianPolicy.mk sq r₂ act net A).log_pis conds acts ∧
    (GaussianPolicy.mk sq r₁ act net A).actions_np conds latents =
      (GaussianPolicy.mk sq r₂ act net A).actions_np conds latents ∧
    (GaussianPolicy.mk sq r₁ act net A).log_pis_np conds acts =
      (GaussianPolicy.mk sq r₂ act net A).log_pis_np conds acts ∧
    (GaussianPolicy.mk sq r₁ act net A).trainable_variables =
      (GaussianPolicy.mk sq r₂ act net A).trainable_variables ∧
    (GaussianPolicy.mk sq r₁ act net A).get_diagnostics iteration batch =
      (GaussianPolicy.mk sq r₂ act net A).get_diagnostics iteration batch :=
  ⟨rfl, rfl, rfl, rfl, rfl, rfl⟩

/-! ### C9: determinism of the sampling path -/

/-- C9: the sampling path is a pure function of the weights, the
conditioning batch and the latent draw; with the seeded sampler producing
the same latents, repeated calls give identical outputs. -/
theorem actions_deterministic_in_latents (p : GaussianPolicy)
    (conds : List (List (List ℝ))) (latents₁ latents₂ : List (List ℝ))
    (h : latents₁ = latents₂) :
    p.actions conds latents₁ = p.actions conds latents₂ := by
  rw [h]

/-- Witness for C9 at a concrete policy and batch. -/
theorem actions_deterministic_in_latents_witness :
    GaussianPolicy.actions ⟨true, 0.001, relu, witnessNet, 1⟩ [[[0]]] [[0]] =
      GaussianPolicy.actions ⟨true, 0.001, relu, witnessNet, 1⟩ [[[0]]] [[0]] :=
  actions_deterministic_in_latents ⟨true, 0.001, relu, witnessNet, 1⟩ [[[0]]] [[0]] [[0]] rfl

/-! ### Shape lemmas for the network and the sampling path -/

theorem denseLayer_length (W : List (List ℝ)) (b : List ℝ) (act : ℝ → ℝ) (x : List ℝ) :
    (denseLayer W b act x).length = min W.length b.length := by
  simp [denseLayer]

theorem conditionerOut_length (act : ℝ → ℝ) (net : PolicyNet) (c : List (List ℝ)) :
    (conditionerOut act net c).length = min net.outputW.length net.outputB.length := by
  simp [conditionerOut, denseLayer]

theorem actionsRow_length (act : ℝ → ℝ) (net : PolicyNet) (A : ℕ) (sq : Bool)
    (c : List (List ℝ)) (z : List ℝ) (hW : net.outputW.length = 2 * A)
    (hB : net.outputB.length = 2 * A) (hz : z.length = A) :
    (actionsRow act net A sq c z).length = A := by
  have hout : (conditionerOut act net c).length = 2 * A := by
    rw [conditionerOut_length, hW, hB, Nat.min_self]
  cases sq <;>
    simp [actionsRow, raw_actions_fn, shiftAndLogScale, hout, hz] <;> omega

theorem actions_model_mem (act : ℝ → ℝ) (net : PolicyNet) (A : ℕ) (sq : Bool)
    (conds : List (List (List ℝ))) (latents : List (List ℝ)) (row : List ℝ)
    (h : row ∈ actions_model act net A sq conds latents) :
    ∃ c z, c ∈ conds ∧ z ∈ latents ∧ row = actionsRow act net A sq c z := by
  induction conds generalizing latents with
  | nil => simp [actions_model] at h
  | cons c cs ih =>
    cases latents with
    | nil => simp [actions_model] at h
    | cons z zs =>
      simp only [actions_model, List.zipWith_cons_cons, List.mem_cons] at h
      rcases h with h | h
      · exact ⟨c, z, by simp, by simp, h⟩
      · obtain ⟨c₁, z₁, hc, hz, hrow⟩ := ih zs h
        exact ⟨c₁, z₁, by simp [hc], by simp [hz], hrow⟩

theorem actionsRow_range (act : ℝ → ℝ) (net : PolicyNet) (A : ℕ) (c : List (List ℝ))
    (z : List ℝ) (v : ℝ) (hv : v ∈ actionsRow act net A true c z) : -1 < v ∧ v < 1 := by
  simp only [actionsRow, squash_bijector_true, forward_squash, List.mem_map] at hv
  obtain ⟨u, _, rfl⟩ := hv
  exact tanh_mem_Ioo u

/-! ### C6: shape and range of sampled actions -/

/-- C6: under well-formed weights and latents, `actions_model` has shape
(batch, A); with `squash = true` every coordinate is strictly inside
(-1, 1); with `squash = false` the output is unconstrained, as exhibited by
a concrete action equal to 5. -/
theorem actions_shape_and_range :
    (∀ (act : ℝ → ℝ) (net : PolicyNet) (A : ℕ) (sq : Bool)
      (conds : List (List (List ℝ))) (latents : List (List ℝ)),
      conds.length = latents.length → (∀ z ∈ latents, z.length = A) →
      net.outputW.length = 2 * A → net.outputB.length = 2 * A →
      (actions_model act net A sq conds latents).length = conds.length ∧
      ∀ row ∈ actions_model act net A sq conds latents, row.length = A) ∧
    (∀ (act : ℝ → ℝ) (net : PolicyNet) (A : ℕ) (conds : List (List (List ℝ)))
      (latents : List (List ℝ)) (row : List ℝ) (v : ℝ),
      row ∈ actions_model act net A true conds latents → v ∈ row → -1 < v ∧ v < 1) ∧
    actionsRow relu unboundedNet 1 false [[0]] [0] = [5] := by
  refine ⟨?_, ?_, ?_⟩
  · intro act net A sq conds latents hlen hz hW hB
    constructor
    · simp [actions_model, hlen]
    · intro row hrow
      obtain ⟨c, z, _, hzmem, rfl⟩ := actions_model_mem act net A sq conds latents row hrow
      exact actionsRow_length act net A sq c z hW hB (hz z hzmem)
  · intro act net A conds latents row v hrow hv
    obtain ⟨c, z, _, _, rfl⟩ := actions_model_mem act net A true conds latents row hrow
    exact actionsRow_range act net A c z v hv
  · simp [actionsRow, raw_actions_fn, shiftAndLogScale, conditionerOut, denseLayer, dot,
      unboundedNet, clipByValue, SCALE_DIAG_MIN_MAX]

/-- Witness for C6 at a concrete batch of size 1. -/
theorem actions_shape_and_range_witness :
    ([[[(0 : ℝ)]]].length = [[(0 : ℝ)]].length ∧ (∀ z ∈ [[(0 : ℝ)]], z.length = 1) ∧
      witnessNet.outputW.length = 2 * 1 ∧ witnessNet.outputB.length = 2 * 1) ∧
    ((actions_model relu witnessNet 1 true [[[0]]] [[0]]).length = [[[(0 : ℝ)]]].length ∧
      ∀ row ∈ actions_model relu witnessNet 1 true [[[0]]] [[0]], row.length = 1) ∧
    (-1 < Real.tanh 0 ∧ Real.tanh 0 < 1) := by
  have hz : ∀ z ∈ [[(0 : ℝ)]], z.length = 1 := by simp
  have h1 := actions_shape_and_range.1 relu witnessNet 1 true [[[0]]] [[0]] rfl hz rfl rfl
  have hrow : actionsRow relu witnessNet 1 true [[0]] [0] ∈
      actions_model relu witnessNet 1 true [[[0]]] [[0]] := by
    simp [actions_model]
  have hv : Real.tanh 0 ∈ actionsRow relu witnessNet 1 true [[0]] [0] := by
    simp [actionsRow, raw_actions_fn, shiftAndLogScale, conditionerOut, denseLayer, dot,
      witnessNet, clipByValue, SCALE_DIAG_MIN_MAX]
  have h2 := actions_shape_and_range.2.1 relu witnessNet 1 [[[0]]] [[0]] _ _ hrow hv
  exact ⟨⟨rfl, hz, rfl, rfl⟩, h1, h2⟩

/-! ### C10: positivity and invertibility of the affine scale -/

/-- C10: the exponentiated clipped log-scales all lie in
`[exp (-20), exp 2]` and are strictly positive; the affine bijector with
exponentiated scales has log-det-Jacobian equal to the (finite) sum of the
log-scales; and the affine bijector is inverted exactly by its inverse map
whenever no scale is zero. -/
theorem scale_positive_invertible :
    (∀ (act : ℝ → ℝ) (net : PolicyNet) (A : ℕ) (c : List (List ℝ)) (s : ℝ),
      s ∈ (shiftAndLogScale act net A c).2.map Real.exp →
      Real.exp (-20) ≤ s ∧ s ≤ Real.exp 2 ∧ 0 < s) ∧
    (∀ sh lsd x : List ℝ, (Bijector.affine sh (lsd.map Real.exp)).fldj x = lsd.sum) ∧
    (∀ sh sc z : List ℝ, sh.length = sc.length → sc.length = z.length →
      (∀ s ∈ sc, s ≠ 0) →
      (Bijector.affine sh sc).inverse ((Bijector.affine sh sc).forward z) = some z) := by
  refine ⟨?_, affine_exp_fldj, affine_inverse_forward⟩
  intro act net A c s hs
  rcases List.mem_map.1 hs with ⟨u, hu, rfl⟩
  have h := shiftAndLogScale_snd_bounds act net A c u hu
  exact ⟨Real.exp_le_exp.2 h.1, Real.exp_le_exp.2 h.2, Real.exp_pos u⟩

/-- Witness for C10 at the concrete zero network and a concrete affine
round trip. -/
theorem scale_positive_invertible_witness :
    (Real.exp 0 ∈ (shiftAndLogScale relu witnessNet 1 [[0]]).2.map Real.exp ∧
      (Real.exp (-20) ≤ Real.exp 0 ∧ Real.exp 0 ≤ Real.exp 2 ∧ 0 < Real.exp 0)) ∧
    (([(0 : ℝ)].length = [(1 : ℝ)].length ∧ [(1 : ℝ)].length = [(3 : ℝ)].length ∧
        ∀ s ∈ [(1 : ℝ)], s ≠ 0) ∧
      (Bijector.affine [0] [1]).inverse ((Bijector.affine [0] [1]).forward [3]) = some [3]) := by
  have hmem : Real.exp 0 ∈ (shiftAndLogScale relu witnessNet 1 [[0]]).2.map Real.exp := by
    simp [shiftAndLogScale, conditionerOut, denseLayer, dot, witnessNet, clipByValue,
      SCALE_DIAG_MIN_MAX]
  have hne : ∀ s ∈ [(1 : ℝ)], s ≠ 0 := by norm_num
  exact ⟨⟨hmem, scale_positive_invertible.1 relu witnessNet 1 [[0]] _ hmem⟩,
    ⟨rfl, rfl, hne⟩, scale_positive_invertible.2.2 [0] [1] [3] rfl rfl hne⟩

/-! ### C1: round-trip consistency of sampling and scoring -/

/-- Scoring a squashed point under the squash-affine chain always succeeds. -/
theorem transformed_comp_squash_affine (A : ℕ) (sh sc raw : List ℝ) :
    ∃ v, transformedLogProb A (Bijector.comp Bijector.squash (Bijector.affine sh sc))
      (raw.map Real.tanh) = some v := by
  have hinv : (Bijector.comp Bijector.squash (Bijector.affine sh sc)).inverse
      (raw.map Real.tanh) =
      some (List.zipWith (fun d s => d / s) (List.zipWith (fun a b => a - b) raw sh) sc) := by
    rw [inverse_comp, ← forward_squash, squash_inverse_forward]
    rfl
  refine ⟨mvnDiagStdLogProb A
      (List.zipWith (fun d s => d / s) (List.zipWith (fun a b => a - b) raw sh) sc) -
    (Bijector.comp Bijector.squash (Bijector.affine sh sc)).fldj
      (List.zipWith (fun d s => d / s) (List.zipWith (fun a b => a - b) raw sh) sc), ?_⟩
  simp only [transformedLogProb]
  rw [hinv]
  rfl

/-- Scoring an action sampled from the same conditioning row always
produces a finite log-probability. -/
theorem log_pis_fn_of_sampled (act : ℝ → ℝ) (net : PolicyNet) (A : ℕ)
    (c : List (List ℝ)) (z : List ℝ) :
    ∃ v, log_pis_fn act net A true c (actionsRow act net A true c z) = some v :=
  transformed_comp_squash_affine A (shiftAndLogScale act net A c).1
    ((shiftAndLogScale act net A c).2.map Real.exp)
    ((Bijector.affine (shiftAndLogScale act net A c).1
      ((shiftAndLogScale act net A c).2.map Real.exp)).forward z)

/-- C1: on any conditioning batch, scoring the batch of sampled actions
with the same conditioning inputs yields a finite (`some`) value in every
entry, and, when the parameter shapes agree, the scoring chain inverts the
sampling composition exactly, recovering the latent draw. -/
theorem round_trip_log_pis_finite :
    (∀ (act : ℝ → ℝ) (net : PolicyNet) (A : ℕ) (conds : List (List (List ℝ)))
      (latents : List (List ℝ)),
      ∃ vs : List ℝ,
        log_pis_model act net A true conds (actions_model act net A true conds latents) =
          vs.map (fun v => [some v])) ∧
    (∀ (act : ℝ → ℝ) (net : PolicyNet) (A : ℕ) (c : List (List ℝ)) (z : List ℝ),
      (shiftAndLogScale act net A c).1.length = (shiftAndLogScale act net A c).2.length →
      (shiftAndLogScale act net A c).2.length = z.length →
      (policyChain act net A true c).inverse (actionsRow act net A true c z) = some z) := by
  constructor
  · intro act net A conds latents
    induction conds generalizing latents with
    | nil => exact ⟨[], rfl⟩
    | cons c cs ih =>
      cases latents with
      | nil => exact ⟨[], rfl⟩
      | cons z zs =>
        obtain ⟨v, hv⟩ := log_pis_fn_of_sampled act net A c z
        obtain ⟨vs, hvs⟩ := ih zs
        refine ⟨v :: vs, ?_⟩
        show [log_pis_fn act net A true c (actionsRow act net A true c z)] ::
            log_pis_model act net A true cs (actions_model act net A true cs zs)
          = [some v] :: vs.map (fun v => [some v])
        rw [hv, hvs]
  · intro act net A c z h1 h2
    show (Bijector.comp Bijector.squash (Bijector.affine (shiftAndLogScale act net A c).1
        ((shiftAndLogScale act net A c).2.map Real.exp))).inverse
        (Bijector.squash.forward ((Bijector.affine (shiftAndLogScale act net A c).1
          ((shiftAndLogScale act net A c).2.map Real.exp)).forward z)) = some z
    rw [inverse_comp, squash_inverse_forward]
    exact affine_inverse_forward _ _ z (by simpa using h1) (by simpa using h2)
      (fun s hs => by rcases List.mem_map.1 hs with ⟨u, _, rfl⟩; exact Real.exp_ne_zero u)

/-- Witness for C1 at the concrete zero network. -/
theorem round_trip_log_pis_finite_witness :
    ((shiftAndLogScale relu witnessNet 1 [[0]]).1.length =
        (shiftAndLogScale relu witnessNet 1 [[0]]).2.length ∧
      (shiftAndLogScale relu witnessNet 1 [[0]]).2.length = [(0 : ℝ)].length) ∧
    (policyChain relu witnessNet 1 true [[0]]).inverse
        (actionsRow relu witnessNet 1 true [[0]] [0]) = some [0] :=
  ⟨⟨rfl, rfl⟩, round_trip_log_pis_finite.2 relu witnessNet 1 [[0]] [0] rfl rfl⟩

/-! ### C5: shape and value of the scoring path -/

theorem log_pis_model_row_mem (act : ℝ → ℝ) (net : PolicyNet) (A : ℕ) (sq : Bool)
    (conds : List (List (List ℝ))) (acts : List (List ℝ)) (row : List (Option ℝ))
    (h : row ∈ log_pis_model act net A sq conds acts) :
    ∃ c a, c ∈ conds ∧ a ∈ acts ∧ row = [log_pis_fn act net A sq c a] := by
  induction conds generalizing acts with
  | nil => simp [log_pis_model] at h
  | cons c cs ih =>
    cases acts with
    | nil => simp [log_pis_model] at h
    | cons a as =>
      simp only [log_pis_model, List.zipWith_cons_cons, List.mem_cons] at h
      rcases h with h | h
      · exact ⟨c, a, by simp, by simp, h⟩
      · obtain ⟨c₁, a₁, hc, ha, hrow⟩ := ih as h
        exact ⟨c₁, a₁, by simp [hc], by simp [ha], hrow⟩

/-- Explicit change-of-variables value of `log_pis_fn` at an in-range
action: the base log-density at the recovered latent, minus the sum of the
affine log-det-Jacobian (the sum of clipped log-scales) and the squash
log-det-Jacobian at the unsquashed action. -/
theorem log_pis_fn_closed_form (act : ℝ → ℝ) (net : PolicyNet) (A : ℕ)
    (c : List (List ℝ)) (a : List ℝ)
    (h1 : (shiftAndLogScale act net A c).1.length = (shiftAndLogScale act net A c).2.length)
    (h2 : (shiftAndLogScale act net A c).2.length = a.length)
    (hr : ∀ y ∈ a, -1 < y ∧ y < 1) :
    log_pis_fn act net A true c a =
      some (mvnDiagStdLogProb A
          (List.zipWith (fun d s => d / s)
            (List.zipWith (fun p q => p - q) (a.map atanh) (shiftAndLogScale act net A c).1)
            ((shiftAndLogScale act net A c).2.map Real.exp)) -
        ((shiftAndLogScale act net A c).2.sum + ((a.map atanh).map squashFLDJ).sum)) := by
  have hne : ∀ s ∈ (shiftAndLogScale act net A c).2.map Real.exp, s ≠ 0 := by
    intro s hs
    rcases List.mem_map.1 hs with ⟨u, _, rfl⟩
    exact Real.exp_ne_zero u
  have hinv : (policyChain act net A true c).inverse a =
      some (List.zipWith (fun d s => d / s)
        (List.zipWith (fun p q => p - q) (a.map atanh) (shiftAndLogScale act net A c).1)
        ((shiftAndLogScale act net A c).2.map Real.exp)) := by
    rw [policyChain, squash_bijector_true, inverse_comp, inverse_squash,
      mapOption_atanhChecked_of_range a hr]
    rfl
  have hfwd := affine_forward_inverse (shiftAndLogScale act net A c).1
    ((shiftAndLogScale act net A c).2.map Real.exp) (a.map atanh)
    (by simpa using h1) (by simpa using h2) hne
  rw [log_pis_fn, transformedLogProb, hinv, Option.map_some']
  rw [policyChain, squash_bijector_true, fldj_comp, affine_exp_fldj, hfwd, fldj_squash]

/-- C5: `log_pis_model` returns a (batch, 1) column (its length is the
zipped batch length and every row is a singleton); each entry is the
change-of-variables log-probability of the pushed-forward base
distribution: the base log-density at the chain's inverse image corrected
by the chain's accumulated log-det-Jacobian; at in-range actions the entry
is the explicit finite value. -/
theorem log_pis_shape_change_of_variables :
    (∀ (act : ℝ → ℝ) (net : PolicyNet) (A : ℕ) (sq : Bool)
      (conds : List (List (List ℝ))) (acts : List (List ℝ)),
      (log_pis_model act net A sq conds acts).length = min conds.length acts.length ∧
      ∀ row ∈ log_pis_model act net A sq conds acts, row.length = 1) ∧
    (∀ (act : ℝ → ℝ) (net : PolicyNet) (A : ℕ) (sq : Bool)
      (conds : List (List (List ℝ))) (acts : List (List ℝ)),
      log_pis_model act net A sq conds acts =
        List.zipWith (fun c a =>
          [((policyChain act net A sq c).inverse a).map
            (fun x => mvnDiagStdLogProb A x - (policyChain act net A sq c).fldj x)])
          conds acts) ∧
    (∀ (act : ℝ → ℝ) (net : PolicyNet) (A : ℕ) (c : List (List ℝ)) (a : List ℝ),
      (shiftAndLogScale act net A c).1.length = (shiftAndLogScale act net A c).2.length →
      (shiftAndLogScale act net A c).2.length = a.length →
      (∀ y ∈ a, -1 < y ∧ y < 1) →
      log_pis_fn act net A true c a =
        some (mvnDiagStdLogProb A
            (List.zipWith (fun d s => d / s)
              (List.zipWith (fun p q => p - q) (a.map atanh) (shiftAndLogScale act net A c).1)
              ((shiftAndLogScale act net A c).2.map Real.exp)) -
          ((shiftAndLogScale act net A c).2.sum + ((a.map atanh).map squashFLDJ).sum))) := by
  refine ⟨?_, fun act net A sq conds acts => rfl, log_pis_fn_closed_form⟩
  intro act net A sq conds acts
  constructor
  · simp [log_pis_model]
  · intro row hrow
    obtain ⟨c, a, _, _, rfl⟩ := log_pis_model_row_mem act net A sq conds acts row hrow
    rfl

/-- Witness for C5 at the concrete zero network. -/
theorem log_pis_shape_change_of_variables_witness :
    ((shiftAndLogScale relu witnessNet 1 [[0]]).1.length =
        (shiftAndLogScale relu witnessNet 1 [[0]]).2.length ∧
      (shiftAndLogScale relu witnessNet 1 [[0]]).2.length = [(0 : ℝ)].length ∧
      ∀ y ∈ [(0 : ℝ)], -1 < y ∧ y < 1) ∧
    log_pis_fn relu witnessNet 1 true [[0]] [0] =
      some (mvnDiagStdLogProb 1
          (List.zipWith (fun d s => d / s)
            (List.zipWith (fun p q => p - q) ([(0 : ℝ)].map atanh)
              (shiftAndLogScale relu witnessNet 1 [[0]]).1)
            ((shiftAndLogScale relu witnessNet 1 [[0]]).2.map Real.exp)) -
        ((shiftAndLogScale relu witnessNet 1 [[0]]).2.sum +
          (([(0 : ℝ)].map atanh).map squashFLDJ).sum)) ∧
    ∀ row ∈ log_pis_model relu witnessNet 1 true [[[0]]] [[0]], row.length = 1 := by
  have hr : ∀ y ∈ [(0 : ℝ)], -1 < y ∧ y < 1 := by norm_num
  exact ⟨⟨rfl, rfl, hr⟩,
    log_pis_shape_change_of_variables.2.2 relu witnessNet 1 [[0]] [0] rfl rfl hr,
    (log_pis_shape_change_of_variables.1 relu witnessNet 1 true [[[0]]] [[0]]).2⟩

end GaussianPolicyModel
